import Mathlib

/-!
Verification of the dictionary-encoded column store
(`src/compression/dictionary_compressed_column.hpp`, namespace `CoGaDB`,
class `DictionaryCompressedColumn<T>`).

The C++ class keeps two members:

  std::map<T, size_t>          _values;    -- value -> reference count
  std::vector<ValueReference>  _position;  -- one map iterator per row

Shallow embedding used below:

* `std::map<T, size_t>` is modelled as a key-sorted association list
  `Dict T = List (T × Nat)`; `std::map::find / emplace / erase` and the
  `++ / --` mutations through an iterator become `Dict.find?`,
  `Dict.emplace`, `Dict.eraseKey`, `Dict.incrCount`, `Dict.decrCount`.
* Within a single column every `_position` iterator points into that
  own `_values` map of that column, and a live `std::map` iterator is determined
  by its key (map nodes are stable and keys never change).  So in the
  per-column model a position slot stores the key of the entry.  The one
  operation for which this identification is wrong — `copy()`, whose
  compiler-generated copy constructor copies iterators that keep
  pointing into the source map — is modelled separately by an explicit
  heap of map nodes (`HeapState` below), which tracks node identity and
  node death.
* `boost::any` becomes `AnyValue`, a tagged value over a small closed
  universe `Ty` of runtime types; `typeid(T) != a.type()` becomes a tag
  comparison.  Floating point appears only as a mismatching tag, so its
  payload is not modelled.
* C++ exceptions (`std::vector::at` throwing `std::out_of_range`) and
  undefined behaviour (dereferencing or erasing an invalidated
  iterator) escape the functions; fallible operations therefore return
  `Except CErr (state × Bool)`: `.ok (s, b)` is a normal return of the
  C++ `bool`, `.error e` is an exception or UB escaping the call.
* `store`/`load` move whitespace-separated text through two files; for
  values that print as single whitespace-free tokens the round trip
  through text is the identity, so the files are modelled at token
  level: `_values` as a list of `(count, value)` lines and `_position`
  as a list of ordinals.
-/

namespace CoGaDB

/-- Runtime-type tags for the `boost::any` boundary (`typeid` compare).
Floating point occurs in the claims only as a mismatching tag, so its
payload carries no data. -/
inductive Ty where
  | tyInt : Ty
  | tyFloat : Ty
deriving DecidableEq

/-- The Lean type denoted by a runtime-type tag. -/
@[reducible] def Ty.denote : Ty → Type
  | .tyInt => Int
  | .tyFloat => Unit

instance (c : Ty) : DecidableEq c.denote := by
  cases c <;> (dsimp [Ty.denote]; infer_instance)

instance (c : Ty) : LinearOrder c.denote := by
  cases c <;> (dsimp [Ty.denote]; infer_instance)

/-- Model of `boost::any`: either empty or a value of some runtime type. -/
inductive AnyValue where
  | empty : AnyValue
  | val (ty : Ty) (v : ty.denote) : AnyValue

/-- Row identifier; index into the position vector. -/
abbrev TID := Nat

deriving instance DecidableEq for Except

/-- Model of `std::map<T, size_t>`: a key-sorted association list. -/
abbrev Dict (T : Type) := List (T × Nat)

namespace Dict

variable {T : Type} [LinearOrder T] [DecidableEq T]

/-- Operation `std::map::find`: the count stored for key `k`, if present. -/
def find? : Dict T → T → Option Nat
  | [], _ => none
  | p :: rest, k => if p.1 = k then some p.2 else find? rest k

/-- Operation `std::map::emplace(k, c)`: insert `(k, c)` at its sorted place if
`k` is absent; keep the existing entry untouched if `k` is present
(`emplace` never overwrites). -/
def emplace : Dict T → T → Nat → Dict T
  | [], k, c => [(k, c)]
  | p :: rest, k, c =>
    if k < p.1 then (k, c) :: p :: rest
    else if k = p.1 then p :: rest
    else p :: emplace rest k c

/-- Operation `std::map::erase(it)` on the node with key `k`. -/
def eraseKey (d : Dict T) (k : T) : Dict T :=
  d.filter fun p => decide (p.1 ≠ k)

/-- Mutation `++(it->second)` on the node with key `k`. -/
def incrCount (d : Dict T) (k : T) : Dict T :=
  d.map fun p => if p.1 = k then (p.1, p.2 + 1) else p

/-- Mutation `--(it->second)` on the node with key `k`.  (The `size_t` cannot
wrap here: entries with count 0 are always erased at once, see the
reference-count invariant.) -/
def decrCount (d : Dict T) (k : T) : Dict T :=
  d.map fun p => if p.1 = k then (p.1, p.2 - 1) else p

/-- The representation invariant of the `std::map` model: entries are
strictly sorted by key (hence keys are distinct). -/
def Sorted (d : Dict T) : Prop := List.Pairwise (fun a b => a.1 < b.1) d

instance (d : Dict T) : Decidable (Sorted d) := by
  unfold Sorted; infer_instance

end Dict

/-- Exceptions / undefined behaviour escaping an operation:
`outOfRange` is `std::out_of_range` thrown by `std::vector::at`;
`dangling` is the UB of dereferencing an iterator whose map node was
erased; `foreignErase` is the UB of `m.erase(it)` with `it` pointing
into a different map than `m`. -/
inductive CErr where
  | outOfRange : CErr
  | dangling : CErr
deriving DecidableEq

/-- The column state: the two data members of
`DictionaryCompressedColumn<T>`.  (The constructor arguments `name` and
`db_type` are metadata held by the base class and touched by no claimed
operation, so they are not modelled.) -/
structure DictionaryCompressedColumn (T : Type) where
  values : Dict T
  position : List T
deriving DecidableEq

namespace DictionaryCompressedColumn

/-- A freshly constructed column: both containers empty. -/
def emptyCol (T : Type) : DictionaryCompressedColumn T := ⟨[], []⟩

variable {T : Type} [LinearOrder T] [DecidableEq T]

/-- Method `size()`: `_position.size()`. -/
def size (s : DictionaryCompressedColumn T) : Nat := s.position.length

/-- Body shared by `insert(const T&)` and the write step of `update`:
`_values.find(v)`; if absent, `_values.emplace(v, 1)`; otherwise
`++(it->second)`.  Returns the updated map; the handle the caller then
stores is the entry of `v`, i.e. `v` itself in this model. -/
def bumpValue (d : Dict T) (v : T) : Dict T :=
  match Dict.find? d v with
  | none => Dict.emplace d v 1
  | some _ => Dict.incrCount d v

/-- Body shared by the reference drop of `update` and `remove`:
`--(it->second)`, erasing the entry when the count reaches 0.  `cnt`
is the count before the decrement, so the erase fires at `cnt = 1`.
(A `size_t` wraparound at `cnt = 0` is unreachable: no entry ever
rests at count 0, see the invariant theorems.) -/
def releaseRef (d : Dict T) (k : T) (cnt : Nat) : Dict T :=
  if cnt = 1 then Dict.eraseKey d k else Dict.decrCount d k

/-- Method `insert(const T&)`: find-or-emplace the value and bump its count,
push the handle of the entry onto `_position`, return `true`. -/
def insert (s : DictionaryCompressedColumn T) (v : T) :
    DictionaryCompressedColumn T × Bool :=
  (⟨bumpValue s.values v, s.position ++ [v]⟩, true)

/-- Method `insert(InputIterator first, InputIterator last)`: append each
element in order, stopping at the first failing append. -/
def insertMany (s : DictionaryCompressedColumn T) (vs : List T) :
    DictionaryCompressedColumn T × Bool :=
  match vs with
  | [] => (s, true)
  | v :: rest =>
    let r := insert s v
    if r.2 then insertMany r.1 rest else (r.1, false)

/-- Method `insert(const boost::any&)`: `false` if the holder is empty or its
runtime type is not `T`; otherwise unwrap and delegate to the typed
insert. -/
def insertAny (c : Ty) (s : DictionaryCompressedColumn c.denote)
    (a : AnyValue) : DictionaryCompressedColumn c.denote × Bool :=
  match a with
  | .empty => (s, false)
  | .val ty v => if h : ty = c then insert s (h ▸ v) else (s, false)

/-- Method `get(TID)`: `_position.at(tid)` (throws `std::out_of_range` when
`tid` is out of bounds), then return the key the stored iterator points
at, wrapped in `boost::any`. -/
def get (s : DictionaryCompressedColumn T) (tid : TID) : Except CErr T :=
  match s.position[tid]? with
  | none => Except.error CErr.outOfRange
  | some k => Except.ok k

/-- Method `update(TID, const boost::any&)`.  Type-check the holder (return
`false` on empty holder or type mismatch); `_position.at(tid)` (throws
on out-of-range); decrement the count of the old entry through the stored
iterator, erasing the entry when it reaches 0; find-or-emplace the new
value and write its handle into `_position[tid]`; finally
`return insert(new_value);` — which appends one more row holding the
new value. -/
def update (c : Ty) (s : DictionaryCompressedColumn c.denote) (tid : TID)
    (a : AnyValue) :
    Except CErr (DictionaryCompressedColumn c.denote × Bool) :=
  match a with
  | .empty => Except.ok (s, false)
  | .val ty v =>
    if h : ty = c then
      let value : c.denote := h ▸ v
      match s.position[tid]? with
      | none => Except.error CErr.outOfRange
      | some oldKey =>
        match Dict.find? s.values oldKey with
        | none => Except.error CErr.dangling
        | some oldCount =>
          let s2 : DictionaryCompressedColumn c.denote :=
            ⟨bumpValue (releaseRef s.values oldKey oldCount) value,
             s.position.set tid value⟩
          Except.ok (insertAny c s2 a)
    else Except.ok (s, false)

/-- Method `remove(TID)`: `_position.at(tid)` (throws on out-of-range);
decrement the count of the entry through the iterator, erasing the entry at
count 0; shift `_position[tid+1 ..]` one slot left and `pop_back`
(together: erase index `tid`); return `true`. -/
def remove (s : DictionaryCompressedColumn T) (tid : TID) :
    Except CErr (DictionaryCompressedColumn T × Bool) :=
  match s.position[tid]? with
  | none => Except.error CErr.outOfRange
  | some oldKey =>
    match Dict.find? s.values oldKey with
    | none => Except.error CErr.dangling
    | some oldCount =>
      Except.ok (⟨releaseRef s.values oldKey oldCount,
        s.position.eraseIdx tid⟩, true)

/-- Method `clearContent()`: clear both containers, return `true`. -/
def clearContent (_s : DictionaryCompressedColumn T) :
    DictionaryCompressedColumn T × Bool :=
  (⟨[], []⟩, true)

/-- The two sidecar files, at token level: `<path>_values` as its list
of `<count> <value>` lines, `<path>_position` as its list of ordinals. -/
structure Files (T : Type) where
  valuesFile : List (Nat × T)
  positionFile : List Nat
deriving DecidableEq

/-- The ordinal `store` assigns to key `k`: its index in the traversal
order of the map.  (`store` builds `value_map`, mapping each key to the
running index `i` at which its line was emitted; since keys are
distinct and emitted in list order, looking `k` up in `value_map`
yields exactly the index of `k` in the key list.) -/
def ordinalOf (d : Dict T) (k : T) : Nat := (d.map Prod.fst).indexOf k

/-- Method `store(path)`: emit one `<count> <value>` line per dictionary entry
in traversal order, then one ordinal per position slot. -/
def store (s : DictionaryCompressedColumn T) : Files T :=
  ⟨s.values.map (fun p => (p.2, p.1)),
   s.position.map (fun k => ordinalOf s.values k)⟩

/-- The `_position` reading loop of `load`: each ordinal `k` is looked
up in `refs` (the vector of handles remembered while reading
`_values`); `refs[pointer]` with an out-of-range pointer is undefined
behaviour in the source, modelled as `none`. -/
def readPositions (refs : List T) : List Nat → Option (List T)
  | [] => some []
  | k :: ks =>
    match refs[k]? with
    | none => none
    | some hnd =>
      match readPositions refs ks with
      | none => none
      | some t => some (hnd :: t)

/-- Method `load(path)`: read `(count, value)` lines, emplacing each into
`_values` — note: into the column as it is, nothing is cleared first,
and `emplace` keeps the count of a pre-existing entry — remembering the
returned handle of each line in `refs`; then push `refs[k]` onto
`_position` for every ordinal `k` read from the position file. -/
def load (s : DictionaryCompressedColumn T) (f : Files T) :
    Option (DictionaryCompressedColumn T) :=
  match readPositions (f.valuesFile.map Prod.snd) f.positionFile with
  | none => none
  | some ps =>
    some ⟨f.valuesFile.foldl (fun d p => Dict.emplace d p.2 p.1) s.values,
      s.position ++ ps⟩

/-- The count the dictionary records for value `k` (0 when absent). -/
def countOf (s : DictionaryCompressedColumn T) (k : T) : Nat :=
  (Dict.find? s.values k).getD 0

/-- Spec invariant 2: no dictionary entry has count 0. -/
def NoZero (d : Dict T) : Prop := ∀ p ∈ d, p.2 ≠ 0

instance (d : Dict T) : Decidable (NoZero d) := by
  unfold NoZero; infer_instance

/-- Spec invariant 1: for every value, the count the dictionary stores
for it (0 when absent) equals the number of position slots citing it. -/
def RefCount (s : DictionaryCompressedColumn T) : Prop :=
  ∀ k, (Dict.find? s.values k).getD 0 = s.position.count k

/-- Spec invariant 4: every handle in the position vector points to a
live dictionary entry. -/
def HandlesLive (s : DictionaryCompressedColumn T) : Prop :=
  ∀ k ∈ s.position, k ∈ s.values.map Prod.fst

instance (s : DictionaryCompressedColumn T) : Decidable (HandlesLive s) := by
  unfold HandlesLive; infer_instance

/-- The full representation invariant carried through every operation. -/
def Inv (s : DictionaryCompressedColumn T) : Prop :=
  Dict.Sorted s.values ∧ NoZero s.values ∧ RefCount s

/-- One public mutating operation, for quantifying over operation
sequences. -/
inductive Op (c : Ty) where
  | opInsert (v : c.denote) : Op c
  | opInsertAny (a : AnyValue) : Op c
  | opUpdate (tid : TID) (a : AnyValue) : Op c
  | opRemove (tid : TID) : Op c
  | opClear : Op c

/-- Execute one operation on the column state.  When the operation
throws (`update`/`remove` on an out-of-range TID), the column is left
as it was: the throw happens in `_position.at` before any mutation. -/
def step (c : Ty) (s : DictionaryCompressedColumn c.denote) :
    Op c → DictionaryCompressedColumn c.denote
  | .opInsert v => (insert s v).1
  | .opInsertAny a => (insertAny c s a).1
  | .opUpdate tid a =>
    match update c s tid a with
    | .ok r => r.1
    | .error _ => s
  | .opRemove tid =>
    match remove s tid with
    | .ok r => r.1
    | .error _ => s
  | .opClear => (clearContent s).1

/-- Run a sequence of operations on a freshly constructed column. -/
def run (c : Ty) (ops : List (Op c)) : DictionaryCompressedColumn c.denote :=
  ops.foldl (step c) (emptyCol c.denote)

end DictionaryCompressedColumn

/-!
The heap model: the per-column model above identifies a `_position`
slot with the key of the map entry it points at, which is adequate as
long as every slot points into the `_values` map of its own column.
The method `copy()` breaks exactly that: the class declares no copy
constructor, so the `new DictionaryCompressedColumn<T>(*this)` inside
it runs the
compiler-generated memberwise copy — `_values` is deep-copied into
fresh map nodes, while `_position` is copied bit-for-bit and its
iterators keep pointing at the map nodes of the SOURCE column.  To state
this, the model below tracks map nodes by identity: a heap of nodes
shared by all columns, where a `ValueReference` is a node id. -/
namespace HeapModel

/-- All `std::map` nodes of all columns, by identity: `heap[i] = some
(key, count)` is a live node, `none` a destroyed one.  A
`ValueReference` (map iterator) is a node id `i`. -/
structure HeapState (T : Type) where
  heap : List (Option (T × Nat))
deriving DecidableEq

/-- One column: the node ids forming its `_values` map, and its
`_position` vector of node ids. -/
structure HColumn where
  valueIds : List Nat
  position : List Nat
deriving DecidableEq

/-- Exceptions / UB escaping an operation in the heap model:
`outOfRange` is the `std::vector::at` throw; `dangling` dereferences a
destroyed node; `foreignErase` is `m.erase(it)` where `it` does not
point into `m` — both UB. -/
inductive HErr where
  | outOfRange : HErr
  | dangling : HErr
  | foreignErase : HErr
deriving DecidableEq

variable {T : Type} [DecidableEq T]

/-- Dereference a node id. -/
def nodeAt (h : HeapState T) (i : Nat) : Option (T × Nat) :=
  (h.heap[i]?).getD none

/-- Lookup `_values.find(v)`: scan the own map nodes of the column for
key `v`.  (The key ordering of the map only affects traversal order, which no
property below observes, so the id list is kept in insertion order.) -/
def findVal (h : HeapState T) (ids : List Nat) (v : T) : Option Nat :=
  ids.find? fun i => decide ((nodeAt h i).map Prod.fst = some v)

/-- Mutate the count of node `i` through an iterator. -/
def modifyNode (h : HeapState T) (i : Nat) (f : Nat → Nat) : HeapState T :=
  ⟨h.heap.set i ((nodeAt h i).map fun n => (n.1, f n.2))⟩

/-- Destroy node `i` (its map erased it). -/
def freeNode (h : HeapState T) (i : Nat) : HeapState T :=
  ⟨h.heap.set i none⟩

/-- Method `insert(const T&)` in the heap model: find the value in the
own map of the column; bump the found node, or allocate a fresh node with
count 1; push the node id onto `_position`. -/
def insert (h : HeapState T) (c : HColumn) (v : T) :
    HeapState T × HColumn × Bool :=
  match findVal h c.valueIds v with
  | some i =>
    (modifyNode h i (· + 1), ⟨c.valueIds, c.position ++ [i]⟩, true)
  | none =>
    let i := h.heap.length
    (⟨h.heap ++ [some (v, 1)]⟩, ⟨c.valueIds ++ [i], c.position ++ [i]⟩, true)

/-- Method `copy()`: the compiler-generated copy constructor.  `_values` is a
`std::map` copy — every node is cloned into fresh storage — while
`_position` is a `std::vector<ValueReference>` copy: the same
iterators, still pointing at the nodes of the source. -/
def copy (h : HeapState T) (c : HColumn) : HeapState T × HColumn :=
  let base := h.heap.length
  let cloned := c.valueIds.map fun i => nodeAt h i
  (⟨h.heap ++ cloned⟩,
   ⟨(List.range cloned.length).map (base + ·), c.position⟩)

/-- The find-or-emplace of `update` writing `_position[tid]`, followed
by the trailing `return insert(new_value);`. -/
def writeSlot (h : HeapState T) (c : HColumn) (tid : TID) (v : T) :
    HeapState T × HColumn × Bool :=
  let r :=
    match findVal h c.valueIds v with
    | some i => (modifyNode h i (· + 1), (⟨c.valueIds, c.position.set tid i⟩ : HColumn))
    | none =>
      let i := h.heap.length
      ((⟨h.heap ++ [some (v, 1)]⟩ : HeapState T), (⟨c.valueIds ++ [i], c.position.set tid i⟩ : HColumn))
  insert r.1 r.2 v

/-- Method `update(tid, any)` in the heap model, after its two type checks
passed and the value was unwrapped.  `_position.at(tid)` throws on
out-of-range; the node of the old slot is decremented through the
iterator and, at count 0, erased from the own map of the column (`foreignErase` UB
when the iterator belongs to a different map); then the new value is
written and the trailing insert appends a row. -/
def update (h : HeapState T) (c : HColumn) (tid : TID) (v : T) :
    Except HErr (HeapState T × HColumn × Bool) :=
  match c.position[tid]? with
  | none => Except.error HErr.outOfRange
  | some oldId =>
    match nodeAt h oldId with
    | none => Except.error HErr.dangling
    | some n =>
      let h1 := modifyNode h oldId (· - 1)
      if n.2 = 1 then
        if oldId ∈ c.valueIds then
          Except.ok (writeSlot (freeNode h1 oldId)
            ⟨c.valueIds.erase oldId, c.position⟩ tid v)
        else Except.error HErr.foreignErase
      else Except.ok (writeSlot h1 c tid v)

/-- Method `remove(tid)` in the heap model. -/
def remove (h : HeapState T) (c : HColumn) (tid : TID) :
    Except HErr (HeapState T × HColumn × Bool) :=
  match c.position[tid]? with
  | none => Except.error HErr.outOfRange
  | some i =>
    match nodeAt h i with
    | none => Except.error HErr.dangling
    | some n =>
      let h1 := modifyNode h i (· - 1)
      if n.2 = 1 then
        if i ∈ c.valueIds then
          Except.ok (freeNode h1 i,
            ⟨c.valueIds.erase i, c.position.eraseIdx tid⟩, true)
        else Except.error HErr.foreignErase
      else Except.ok (h1, ⟨c.valueIds, c.position.eraseIdx tid⟩, true)

/-- Method `get(tid)` in the heap model: bounds-checked slot read, then a
dereference of the stored iterator. -/
def get (h : HeapState T) (c : HColumn) (tid : TID) : Except HErr T :=
  match c.position[tid]? with
  | none => Except.error HErr.outOfRange
  | some i =>
    match nodeAt h i with
    | none => Except.error HErr.dangling
    | some n => Except.ok n.1

end HeapModel

/-! General list bookkeeping lemmas used by the invariant proofs. -/

theorem count_set_eq {α : Type} [DecidableEq α] (l : List α) (i : Nat) (x v k : α)
    (h : l[i]? = some x) :
    (l.set i v).count k + (if x = k then 1 else 0)
      = l.count k + (if v = k then 1 else 0) := by
  induction l generalizing i with
  | nil => simp at h
  | cons a t ih =>
    cases i with
    | zero =>
      simp only [List.getElem?_cons_zero, Option.some_inj] at h
      rw [← h]
      simp only [List.set, List.count_cons, beq_iff_eq]
      by_cases hv : v = k <;> by_cases ha : a = k <;> simp [hv, ha]
    | succ n =>
      simp only [List.getElem?_cons_succ] at h
      have h2 := ih n h
      simp only [List.set, List.count_cons, beq_iff_eq]
      by_cases ha : a = k <;> simp [ha] <;> omega

theorem count_eraseIdx_eq {α : Type} [DecidableEq α] (l : List α) (i : Nat) (x k : α)
    (h : l[i]? = some x) :
    (l.eraseIdx i).count k + (if x = k then 1 else 0) = l.count k := by
  induction l generalizing i with
  | nil => simp at h
  | cons a t ih =>
    cases i with
    | zero =>
      simp only [List.getElem?_cons_zero, Option.some_inj] at h
      rw [← h]
      simp [List.eraseIdx, List.count_cons]
    | succ n =>
      simp only [List.getElem?_cons_succ] at h
      have h2 := ih n h
      simp only [List.eraseIdx, List.count_cons, beq_iff_eq]
      by_cases ha : a = k <;> simp [ha] <;> omega

theorem getElem?_eraseIdx_lt {α : Type} (l : List α) (i j : Nat) (h : j < i) :
    (l.eraseIdx i)[j]? = l[j]? := by
  induction l generalizing i j with
  | nil => simp [List.eraseIdx]
  | cons a t ih =>
    cases i with
    | zero => omega
    | succ n =>
      cases j with
      | zero => simp [List.eraseIdx]
      | succ m =>
        simp only [List.eraseIdx, List.getElem?_cons_succ]
        exact ih n m (by omega)

theorem getElem?_eraseIdx_ge {α : Type} (l : List α) (i j : Nat) (h : i ≤ j) :
    (l.eraseIdx i)[j]? = l[j + 1]? := by
  induction l generalizing i j with
  | nil => simp [List.eraseIdx]
  | cons a t ih =>
    cases i with
    | zero => simp [List.eraseIdx]
    | succ n =>
      cases j with
      | zero => omega
      | succ m =>
        simp only [List.eraseIdx, List.getElem?_cons_succ]
        exact ih n m (by omega)

/-! Lemmas about the `std::map` model. -/

namespace Dict

variable {T : Type} [LinearOrder T] [DecidableEq T]

theorem find?_eq_none_of_forall {d : Dict T} {k : T}
    (h : ∀ p ∈ d, p.1 ≠ k) : find? d k = none := by
  induction d with
  | nil => rfl
  | cons p rest ih =>
    simp only [find?]
    rw [if_neg (h p (List.mem_cons_self p rest))]
    exact ih fun q hq => h q (List.mem_cons_of_mem _ hq)

theorem mem_of_find? {d : Dict T} {k : T} {c : Nat}
    (h : find? d k = some c) : (k, c) ∈ d := by
  induction d with
  | nil => simp [find?] at h
  | cons p rest ih =>
    simp only [find?] at h
    by_cases hp : p.1 = k
    · rw [if_pos hp] at h
      have : p.2 = c := by exact Option.some_inj.1 h
      have hpk : p = (k, c) := by
        cases p; cases hp; cases this; rfl
      rw [← hpk]
      exact List.mem_cons_self p rest
    · rw [if_neg hp] at h
      exact List.mem_cons_of_mem _ (ih h)

theorem find?_eq_of_mem {d : Dict T} {p : T × Nat}
    (hs : Sorted d) (hp : p ∈ d) : find? d p.1 = some p.2 := by
  induction d with
  | nil => cases hp
  | cons q rest ih =>
    rcases List.mem_cons.1 hp with h | h
    · subst h; simp [find?]
    · have hlt : q.1 < p.1 := (List.pairwise_cons.1 hs).1 p h
      simp only [find?, if_neg (ne_of_lt hlt)]
      exact ih (List.pairwise_cons.1 hs).2 h

theorem mem_keys_of_find? {d : Dict T} {k : T} {c : Nat}
    (h : find? d k = some c) : k ∈ d.map Prod.fst := by
  have := mem_of_find? h
  exact List.mem_map.2 ⟨(k, c), this, rfl⟩

theorem mem_emplace {d : Dict T} {k : T} {c : Nat} {q : T × Nat}
    (h : q ∈ emplace d k c) : q = (k, c) ∨ q ∈ d := by
  induction d with
  | nil => simpa [emplace] using h
  | cons p rest ih =>
    by_cases h1 : k < p.1
    · simp only [emplace, if_pos h1] at h
      rcases List.mem_cons.1 h with h2 | h2
      · exact Or.inl h2
      · exact Or.inr h2
    · by_cases h2 : k = p.1
      · simp only [emplace, if_neg h1, if_pos h2] at h
        exact Or.inr h
      · simp only [emplace, if_neg h1, if_neg h2] at h
        rcases List.mem_cons.1 h with h3 | h3
        · exact Or.inr (h3 ▸ List.mem_cons_self p rest)
        · rcases ih h3 with h4 | h4
          · exact Or.inl h4
          · exact Or.inr (List.mem_cons_of_mem _ h4)

theorem find?_emplace_ne {d : Dict T} {k q : T} (c : Nat) (hne : q ≠ k) :
    find? (emplace d k c) q = find? d q := by
  induction d with
  | nil => simp [emplace, find?, if_neg (Ne.symm hne)]
  | cons p rest ih =>
    by_cases h1 : k < p.1
    · simp only [emplace, if_pos h1, find?, if_neg (Ne.symm hne)]
    · by_cases h2 : k = p.1
      · simp only [emplace, if_neg h1, if_pos h2]
      · simp only [emplace, if_neg h1, if_neg h2, find?]
        by_cases h3 : p.1 = q
        · simp [h3]
        · simp only [if_neg h3]
          exact ih

theorem find?_emplace_self {d : Dict T} (k : T) (c : Nat) (hs : Sorted d) :
    find? (emplace d k c) k = some ((find? d k).getD c) := by
  induction d with
  | nil => simp [emplace, find?]
  | cons p rest ih =>
    by_cases h1 : k < p.1
    · have hni : find? (p :: rest) k = none := by
        apply find?_eq_none_of_forall
        intro q hq
        rcases List.mem_cons.1 hq with h2 | h2
        · exact h2 ▸ ne_of_gt h1
        · exact ne_of_gt (lt_trans h1 ((List.pairwise_cons.1 hs).1 q h2))
      have hl : find? (emplace (p :: rest) k c) k = some c := by
        simp [emplace, if_pos h1, find?]
      rw [hl, hni]
      rfl
    · by_cases h2 : k = p.1
      · have hpk : p.1 = k := h2.symm
        simp [emplace, if_neg h1, if_pos h2, find?, hpk]
      · have hpk : p.1 ≠ k := fun h => h2 h.symm
        simp only [emplace, if_neg h1, if_neg h2, find?, if_neg hpk]
        exact ih (List.pairwise_cons.1 hs).2

theorem find?_mapAt_self (d : Dict T) (k : T) (f : Nat → Nat) :
    find? (d.map fun p => if p.1 = k then (p.1, f p.2) else p) k
      = (find? d k).map f := by
  induction d with
  | nil => rfl
  | cons p rest ih =>
    by_cases h : p.1 = k
    · simp [find?, h]
    · simp only [List.map_cons, if_neg h, find?, if_neg h]
      exact ih

theorem find?_mapAt_ne (d : Dict T) {k q : T} (f : Nat → Nat) (hne : q ≠ k) :
    find? (d.map fun p => if p.1 = k then (p.1, f p.2) else p) q
      = find? d q := by
  induction d with
  | nil => rfl
  | cons p rest ih =>
    by_cases h : p.1 = k
    · have hpq : p.1 ≠ q := fun h2 => hne (h2 ▸ h)
      simpa [List.map_cons, if_pos h, find?, hpq] using ih
    · simp only [List.map_cons, if_neg h, find?]
      by_cases h2 : p.1 = q
      · simp [h2]
      · simp only [if_neg h2]
        exact ih

theorem find?_incrCount_self (d : Dict T) (k : T) :
    find? (incrCount d k) k = (find? d k).map (· + 1) :=
  find?_mapAt_self d k (· + 1)

theorem find?_incrCount_ne (d : Dict T) {k q : T} (hne : q ≠ k) :
    find? (incrCount d k) q = find? d q :=
  find?_mapAt_ne d (· + 1) hne

theorem find?_decrCount_self (d : Dict T) (k : T) :
    find? (decrCount d k) k = (find? d k).map (· - 1) :=
  find?_mapAt_self d k (· - 1)

theorem find?_decrCount_ne (d : Dict T) {k q : T} (hne : q ≠ k) :
    find? (decrCount d k) q = find? d q :=
  find?_mapAt_ne d (· - 1) hne

theorem find?_eraseKey_self (d : Dict T) (k : T) :
    find? (eraseKey d k) k = none := by
  apply find?_eq_none_of_forall
  intro p hp
  have := List.of_mem_filter hp
  simpa using this

theorem find?_eraseKey_ne (d : Dict T) {k q : T} (hne : q ≠ k) :
    find? (eraseKey d k) q = find? d q := by
  induction d with
  | nil => rfl
  | cons p rest ih =>
    by_cases h : p.1 = k
    · have hpq : p.1 ≠ q := fun h2 => hne (h2 ▸ h)
      simp only [eraseKey, List.filter_cons, decide_eq_true_eq] at ih ⊢
      rw [if_neg (by simp [h])]
      simp only [find?, if_neg hpq]
      exact ih
    · simp only [eraseKey, List.filter_cons, decide_eq_true_eq] at ih ⊢
      rw [if_pos (by simp [h])]
      simp only [find?]
      by_cases h2 : p.1 = q
      · simp [h2]
      · simp only [if_neg h2]
        exact ih

theorem Sorted.mapAt {d : Dict T} (hs : Sorted d) (k : T) (f : Nat → Nat) :
    Sorted (d.map fun p => if p.1 = k then (p.1, f p.2) else p) := by
  refine (List.pairwise_map).2 (hs.imp ?_)
  intro a b hab
  split_ifs <;> exact hab

theorem Sorted.incrCount {d : Dict T} (hs : Sorted d) (k : T) :
    Sorted (Dict.incrCount d k) :=
  hs.mapAt k (· + 1)

theorem Sorted.decrCount {d : Dict T} (hs : Sorted d) (k : T) :
    Sorted (Dict.decrCount d k) :=
  hs.mapAt k (· - 1)

theorem Sorted.eraseKey {d : Dict T} (hs : Sorted d) (k : T) :
    Sorted (Dict.eraseKey d k) :=
  List.Pairwise.sublist (List.filter_sublist d) hs

theorem Sorted.emplace {d : Dict T} (hs : Sorted d) (k : T) (c : Nat) :
    Sorted (Dict.emplace d k c) := by
  induction d with
  | nil => simp [Dict.emplace, Sorted]
  | cons p rest ih =>
    rcases List.pairwise_cons.1 hs with ⟨hall, hrest⟩
    by_cases h1 : k < p.1
    · simp only [Dict.emplace, if_pos h1]
      refine List.Pairwise.cons ?_ hs
      intro q hq
      rcases List.mem_cons.1 hq with h2 | h2
      · exact h2 ▸ h1
      · exact lt_trans h1 (hall q h2)
    · by_cases h2 : k = p.1
      · simpa [Dict.emplace, if_neg h1, if_pos h2] using hs
      · have hpk : p.1 < k := lt_of_le_of_ne (not_lt.1 h1) (fun h => h2 h.symm)
        simp only [Dict.emplace, if_neg h1, if_neg h2]
        refine List.Pairwise.cons ?_ (ih hrest)
        intro q hq
        rcases mem_emplace hq with h3 | h3
        · exact h3 ▸ hpk
        · exact hall q h3

end Dict

/-! Lemmas about the column operations. -/

namespace DictionaryCompressedColumn

variable {T : Type} [LinearOrder T] [DecidableEq T]

theorem releaseRef_spec {d : Dict T} {k : T} {cnt : Nat}
    (hs : Dict.Sorted d) (hz : NoZero d) (hfind : Dict.find? d k = some cnt) :
    Dict.Sorted (releaseRef d k cnt) ∧ NoZero (releaseRef d k cnt) ∧
    (Dict.find? (releaseRef d k cnt) k).getD 0 = cnt - 1 ∧
    (cnt = 1 → Dict.find? (releaseRef d k cnt) k = none) ∧
    ∀ q, q ≠ k → Dict.find? (releaseRef d k cnt) q = Dict.find? d q := by
  have hcnt0 : cnt ≠ 0 := hz (k, cnt) (Dict.mem_of_find? hfind)
  by_cases h1 : cnt = 1
  · simp only [releaseRef, if_pos h1]
    refine ⟨hs.eraseKey k, ?_, ?_, fun _ => Dict.find?_eraseKey_self d k,
      fun q hq => Dict.find?_eraseKey_ne d hq⟩
    · intro p hp
      exact hz p (List.mem_of_mem_filter hp)
    · rw [Dict.find?_eraseKey_self]
      simp [h1]
  · simp only [releaseRef, if_neg h1]
    refine ⟨hs.decrCount k, ?_, ?_, fun h => absurd h h1,
      fun q hq => Dict.find?_decrCount_ne d hq⟩
    · intro p hp
      rcases List.mem_map.1 hp with ⟨q, hq, hfq⟩
      by_cases hqk : q.1 = k
      · have hq2 : q.2 = cnt := by
          have h2 := Dict.find?_eq_of_mem hs hq
          rw [hqk, hfind] at h2
          exact (Option.some_inj.1 h2).symm
        rw [← hfq]
        simp only [if_pos hqk]
        omega
      · rw [← hfq]
        simp only [if_neg hqk]
        exact hz q hq
    · rw [Dict.find?_decrCount_self, hfind]
      rfl

theorem bumpValue_spec (d : Dict T) (v : T) (hs : Dict.Sorted d) (hz : NoZero d) :
    Dict.Sorted (bumpValue d v) ∧ NoZero (bumpValue d v) ∧
    Dict.find? (bumpValue d v) v = some ((Dict.find? d v).getD 0 + 1) ∧
    ∀ q, q ≠ v → Dict.find? (bumpValue d v) q = Dict.find? d q := by
  unfold bumpValue
  cases hf : Dict.find? d v with
  | none =>
    refine ⟨hs.emplace v 1, ?_, ?_, fun q hq => Dict.find?_emplace_ne 1 hq⟩
    · intro p hp
      rcases Dict.mem_emplace hp with h2 | h2
      · rw [h2]; simp
      · exact hz p h2
    · rw [Dict.find?_emplace_self v 1 hs, hf]
      rfl
  | some c =>
    refine ⟨hs.incrCount v, ?_, ?_, fun q hq => Dict.find?_incrCount_ne d hq⟩
    · intro p hp
      rcases List.mem_map.1 hp with ⟨q, hq, hfq⟩
      rw [← hfq]
      by_cases hqv : q.1 = v
      · simp only [if_pos hqv]
        omega
      · simp only [if_neg hqv]
        exact hz q hq
    · rw [Dict.find?_incrCount_self, hf]
      rfl

theorem Inv_insert {s : DictionaryCompressedColumn T} (h : Inv s) (v : T) :
    Inv (insert s v).1 := by
  obtain ⟨hs, hz, hrc⟩ := h
  obtain ⟨hs2, hz2, hself, hne⟩ := bumpValue_spec s.values v hs hz
  refine ⟨hs2, hz2, ?_⟩
  intro k
  show (Dict.find? (bumpValue s.values v) k).getD 0 = (s.position ++ [v]).count k
  have h0 := hrc k
  by_cases hk : k = v
  · subst hk
    rw [hself]
    have hone : ([k] : List T).count k = 1 := by simp
    rw [List.count_append, hone]
    simp only [Option.getD_some]
    omega
  · rw [hne k hk]
    have hone : ([v] : List T).count k = 0 := by
      simp [List.count_cons, Ne.symm hk]
    rw [List.count_append, hone]
    omega

theorem insert_snd (s : DictionaryCompressedColumn T) (v : T) :
    (insert s v).2 = true := rfl

theorem insert_position (s : DictionaryCompressedColumn T) (v : T) :
    (insert s v).1.position = s.position ++ [v] := rfl

theorem size_insert (s : DictionaryCompressedColumn T) (v : T) :
    size (insert s v).1 = size s + 1 := by
  simp [size, insert]

theorem insertMany_spec (s : DictionaryCompressedColumn T) (vs : List T) :
    size (insertMany s vs).1 = size s + vs.length ∧ (insertMany s vs).2 = true := by
  induction vs generalizing s with
  | nil => simp [insertMany]
  | cons v rest ih =>
    simp only [insertMany, insert_snd, if_pos]
    obtain ⟨h1, h2⟩ := ih (insert s v).1
    refine ⟨?_, h2⟩
    rw [h1, size_insert]
    simp only [List.length_cons]
    omega

theorem insertAny_empty (c : Ty) (s : DictionaryCompressedColumn c.denote) :
    insertAny c s AnyValue.empty = (s, false) := rfl

theorem insertAny_mismatch (c : Ty) (s : DictionaryCompressedColumn c.denote)
    {ty : Ty} (v : ty.denote) (h : ty ≠ c) :
    insertAny c s (AnyValue.val ty v) = (s, false) := by
  simp [insertAny, h]

theorem insertAny_match (c : Ty) (s : DictionaryCompressedColumn c.denote)
    (v : c.denote) :
    insertAny c s (AnyValue.val c v) = insert s v := by
  simp [insertAny]

theorem Inv_insertAny {c : Ty} {s : DictionaryCompressedColumn c.denote}
    (h : Inv s) (a : AnyValue) : Inv (insertAny c s a).1 := by
  cases a with
  | empty => exact h
  | val ty v =>
    by_cases hty : ty = c
    · subst hty
      rw [insertAny_match]
      exact Inv_insert h v
    · rw [insertAny_mismatch c s v hty]
      exact h

theorem Inv_emptyCol (T : Type) [LinearOrder T] [DecidableEq T] :
    Inv (emptyCol T) := by
  refine ⟨List.Pairwise.nil, ?_, ?_⟩
  · intro p hp
    cases hp
  · intro k
    rfl

theorem Inv_clear (s : DictionaryCompressedColumn T) : Inv (clearContent s).1 :=
  Inv_emptyCol T

theorem Inv_writeSlot {s : DictionaryCompressedColumn T} (hInv : Inv s)
    {tid : TID} {oldKey : T} (value : T) {cnt : Nat}
    (hpos : s.position[tid]? = some oldKey)
    (hfind : Dict.find? s.values oldKey = some cnt) :
    Inv (⟨bumpValue (releaseRef s.values oldKey cnt) value,
          s.position.set tid value⟩ : DictionaryCompressedColumn T) := by
  obtain ⟨hs, hz, hrc⟩ := hInv
  obtain ⟨hs1, hz1, hgd1, hev1, hne1⟩ := releaseRef_spec hs hz hfind
  obtain ⟨hs2, hz2, hself2, hne2⟩ := bumpValue_spec _ value hs1 hz1
  set D1 := releaseRef s.values oldKey cnt with hD1
  refine ⟨hs2, hz2, ?_⟩
  intro k
  have hcnt : cnt = s.position.count oldKey := by
    have h2 := hrc oldKey
    rw [hfind] at h2
    simpa using h2
  have hcnt0 : cnt ≠ 0 := hz (oldKey, cnt) (Dict.mem_of_find? hfind)
  have hset := count_set_eq s.position tid oldKey value k hpos
  show (Dict.find? (bumpValue D1 value) k).getD 0
      = (s.position.set tid value).count k
  by_cases hk : k = value
  · rw [hk]
    rw [hself2]
    simp only [Option.getD_some]
    rw [hk] at hset
    rw [if_pos (show value = value from rfl)] at hset
    by_cases hvo : value = oldKey
    · rw [← hvo] at hgd1 hcnt
      rw [hgd1]
      rw [if_pos (show oldKey = value from hvo.symm)] at hset
      omega
    · rw [hne1 value hvo]
      have h0 := hrc value
      rw [if_neg (show ¬oldKey = value from fun h2 => hvo h2.symm)] at hset
      omega
  · rw [hne2 k hk]
    rw [if_neg (show ¬value = k from fun h2 => hk h2.symm)] at hset
    by_cases hko : k = oldKey
    · rw [hko]
      rw [hgd1]
      rw [hko] at hset
      rw [if_pos (show oldKey = oldKey from rfl)] at hset
      omega
    · rw [hne1 k hko]
      have h0 := hrc k
      rw [if_neg (show ¬oldKey = k from fun h2 => hko h2.symm)] at hset
      omega

theorem update_ok_inv {c : Ty} {s : DictionaryCompressedColumn c.denote}
    (hInv : Inv s) {tid : TID} {a : AnyValue}
    {r : DictionaryCompressedColumn c.denote × Bool}
    (hr : update c s tid a = Except.ok r) : Inv r.1 := by
  cases a with
  | empty =>
    simp only [update] at hr
    obtain rfl := Except.ok.inj hr
    exact hInv
  | val ty v =>
    by_cases hty : ty = c
    · subst hty
      simp only [update, dif_pos] at hr
      split at hr
      next hpos => exact Except.noConfusion hr
      next oldKey hpos =>
        split at hr
        next hfind => exact Except.noConfusion hr
        next cnt hfind =>
          obtain rfl := Except.ok.inj hr
          exact Inv_insertAny (Inv_writeSlot hInv _ hpos hfind) _
    · simp only [update, dif_neg hty] at hr
      obtain rfl := Except.ok.inj hr
      exact hInv

theorem remove_ok_inv {s : DictionaryCompressedColumn T} (hInv : Inv s) {tid : TID}
    {r : DictionaryCompressedColumn T × Bool}
    (hr : remove s tid = Except.ok r) : Inv r.1 := by
  obtain ⟨hs, hz, hrc⟩ := hInv
  unfold remove at hr
  split at hr
  next hpos => exact Except.noConfusion hr
  next oldKey hpos =>
    split at hr
    next hfind => exact Except.noConfusion hr
    next cnt hfind =>
      obtain rfl := Except.ok.inj hr
      obtain ⟨hs1, hz1, hgd1, hev1, hne1⟩ := releaseRef_spec hs hz hfind
      set D1 := releaseRef s.values oldKey cnt with hD1
      refine ⟨hs1, hz1, ?_⟩
      intro k
      have hcnt : cnt = s.position.count oldKey := by
        have h2 := hrc oldKey
        rw [hfind] at h2
        simpa using h2
      have hcnt0 : cnt ≠ 0 := hz (oldKey, cnt) (Dict.mem_of_find? hfind)
      have hdel := count_eraseIdx_eq s.position tid oldKey k hpos
      show (Dict.find? D1 k).getD 0 = (s.position.eraseIdx tid).count k
      by_cases hko : k = oldKey
      · rw [hko]
        rw [hgd1]
        rw [hko] at hdel
        rw [if_pos (show oldKey = oldKey from rfl)] at hdel
        omega
      · rw [hne1 k hko]
        have h0 := hrc k
        rw [if_neg (show ¬oldKey = k from fun h2 => hko h2.symm)] at hdel
        omega

theorem Inv_step {c : Ty} {s : DictionaryCompressedColumn c.denote}
    (h : Inv s) (op : Op c) : Inv (step c s op) := by
  cases op with
  | opInsert v => exact Inv_insert h v
  | opInsertAny a => exact Inv_insertAny h a
  | opUpdate tid a =>
    simp only [step]
    cases hr : update c s tid a with
    | ok r => exact update_ok_inv h hr
    | error e => exact h
  | opRemove tid =>
    simp only [step]
    cases hr : remove s tid with
    | ok r => exact remove_ok_inv h hr
    | error e => exact h
  | opClear => exact Inv_clear s

theorem Inv_foldl {c : Ty} (ops : List (Op c)) :
    ∀ s, Inv s → Inv (ops.foldl (step c) s) := by
  induction ops with
  | nil => intro s h; exact h
  | cons op rest ih =>
    intro s h
    exact ih _ (Inv_step h op)

theorem Inv_run (c : Ty) (ops : List (Op c)) : Inv (run c ops) :=
  Inv_foldl ops _ (Inv_emptyCol c.denote)

theorem readPositions_ordinals (keys : List T) (pos : List T)
    (h : ∀ k ∈ pos, k ∈ keys) :
    readPositions keys (pos.map fun k => keys.indexOf k) = some pos := by
  induction pos with
  | nil => rfl
  | cons k rest ih =>
    have hk : k ∈ keys := h k (List.mem_cons_self k rest)
    simp only [List.map_cons, readPositions]
    rw [List.getElem?_indexOf hk,
      ih fun q hq => h q (List.mem_cons_of_mem _ hq)]

theorem readPositions_length (refs : List T) (ks : List Nat) (ps : List T)
    (h : readPositions refs ks = some ps) : ps.length = ks.length := by
  induction ks generalizing ps with
  | nil =>
    simp only [readPositions, Option.some_inj] at h
    subst h
    rfl
  | cons k rest ih =>
    unfold readPositions at h
    split at h
    next => exact Option.noConfusion h
    next hnd heq =>
      split at h
      next => exact Option.noConfusion h
      next t heq2 =>
        obtain rfl := Option.some_inj.1 h
        simp [ih t heq2]

theorem find?_foldl_emplace (lines : List (Nat × T)) :
    ∀ (d : Dict T), Dict.Sorted d → ∀ v c, Dict.find? d v = some c →
      Dict.find? (lines.foldl (fun d p => Dict.emplace d p.2 p.1) d) v = some c := by
  induction lines with
  | nil => intro d _ v c h; exact h
  | cons p rest ih =>
    intro d hsd v c h
    simp only [List.foldl_cons]
    refine ih _ (hsd.emplace p.2 p.1) v c ?_
    by_cases hv : v = p.2
    · rw [hv] at h ⊢
      rw [Dict.find?_emplace_self p.2 p.1 hsd, h]
      rfl
    · rw [Dict.find?_emplace_ne p.1 hv]
      exact h

/-! The claim theorems. -/

/-- C1: the claim states that a successful update leaves the row count
unchanged.  The code violates it: updating the single row of a
one-row column succeeds (returns `true`) and leaves a column of TWO
rows, because `update` ends with `return insert(new_value);`, which
appends the new value at the tail. -/
theorem update_appends_row :
    (update Ty.tyInt (insert (emptyCol Int) 1).1 0
        (AnyValue.val Ty.tyInt 2)).map (fun r => (size r.1, r.2))
      = Except.ok (2, true) ∧
    size (insert (emptyCol Int) 1).1 = 1 := by
  constructor
  · decide
  · decide

/-- C4: after any finite sequence of insert, update, remove and
clearContent operations on a freshly constructed column, no dictionary
entry rests at count 0, and for every value the count the dictionary
stores for it (0 when absent) equals the number of position slots
holding that value. -/
theorem run_refcount_invariant (c : Ty) (ops : List (Op c)) :
    NoZero (run c ops).values ∧ RefCount (run c ops) :=
  ⟨(Inv_run c ops).2.1, (Inv_run c ops).2.2⟩

/-- C3: storing a column and loading the two files into a freshly
constructed column yields a column of the same size whose every row
reads back equal.  The hypothesis is spec invariant 4 (every position
handle points to a live dictionary entry), which holds in every
reachable state. -/
theorem store_load_roundtrip (s : DictionaryCompressedColumn T)
    (h : HandlesLive s) :
    ∃ s2, load (emptyCol T) (store s) = some s2 ∧
      size s2 = size s ∧
      ∀ tid, tid < size s → get s2 tid = get s tid := by
  have hrefs : (store s).valuesFile.map Prod.snd = s.values.map Prod.fst := by
    simp [store]
  have hord : (store s).positionFile
      = s.position.map fun k => (s.values.map Prod.fst).indexOf k := by
    simp [store, ordinalOf]
  have hload : load (emptyCol T) (store s)
      = some ⟨(store s).valuesFile.foldl
          (fun d p => Dict.emplace d p.2 p.1) (emptyCol T).values,
          (emptyCol T).position ++ s.position⟩ := by
    unfold load
    rw [hrefs, hord, readPositions_ordinals _ _ h]
  refine ⟨_, hload, ?_, ?_⟩
  · simp [size, emptyCol]
  · intro tid htid
    simp [get, emptyCol]

/-- Witness for C3 at a concrete two-row column. -/
theorem store_load_roundtrip_witness :
    (load (emptyCol Int)
      (store (insert (insert (emptyCol Int) 7).1 5).1)).isSome = true := by
  obtain ⟨s2, h1, h2, h3⟩ :=
    store_load_roundtrip (insert (insert (emptyCol Int) 7).1 5).1 (by decide)
  rw [h1]
  rfl

/-- C5: for a tid in range (in an invariant-satisfying state), remove
succeeds returning `true`, shrinks the size by exactly 1, decrements
the count of the entry the removed slot pointed at — erasing the entry
when its count was 1 — keeps all rows below `tid` in place, and makes
every row previously at `j > tid` readable at `j - 1` with the same
value; for a tid at or beyond the size, remove fails with the
out-of-range error. -/
theorem remove_spec (s : DictionaryCompressedColumn T) (tid : TID)
    (hInv : Inv s) (htid : tid < size s) :
    (∃ k s2, s.position[tid]? = some k ∧
      remove s tid = Except.ok (s2, true) ∧
      size s2 = size s - 1 ∧
      countOf s2 k = countOf s k - 1 ∧
      (countOf s k = 1 → Dict.find? s2.values k = none) ∧
      (∀ j, j < tid → get s2 j = get s j) ∧
      (∀ j, tid < j → j < size s → get s2 (j - 1) = get s j)) ∧
    ∀ tid2, size s ≤ tid2 → remove s tid2 = Except.error CErr.outOfRange := by
  obtain ⟨hs, hz, hrc⟩ := hInv
  constructor
  · obtain ⟨k, hpos⟩ : ∃ k, s.position[tid]? = some k :=
      ⟨_, List.getElem?_eq_getElem htid⟩
    have hmem : k ∈ s.position := List.getElem?_mem hpos
    have hcntpos : 0 < s.position.count k := List.count_pos_iff.2 hmem
    have h0 := hrc k
    cases hfind : Dict.find? s.values k with
    | none =>
      rw [hfind] at h0
      simp only [Option.getD_none] at h0
      omega
    | some cnt =>
      obtain ⟨hs1, hz1, hgd1, hev1, hne1⟩ := releaseRef_spec hs hz hfind
      refine ⟨k, ⟨releaseRef s.values k cnt, s.position.eraseIdx tid⟩,
        hpos, ?_, ?_, ?_, ?_, ?_, ?_⟩
      · simp only [remove, hpos, hfind]
      · show (s.position.eraseIdx tid).length = s.position.length - 1
        rw [List.length_eraseIdx,
          if_pos (show tid < s.position.length from htid)]
      · show (Dict.find? (releaseRef s.values k cnt) k).getD 0
          = countOf s k - 1
        rw [hgd1]
        unfold countOf
        rw [hfind]
        rfl
      · intro h1
        unfold countOf at h1
        rw [hfind] at h1
        simp only [Option.getD_some] at h1
        exact hev1 h1
      · intro j hj
        unfold get
        rw [getElem?_eraseIdx_lt s.position tid j hj]
      · intro j hj1 hj2
        unfold get
        have hj3 : tid ≤ j - 1 := Nat.le_pred_of_lt hj1
        have hj4 : j - 1 + 1 = j :=
          Nat.succ_pred_eq_of_pos (Nat.zero_lt_of_lt hj1)
        rw [getElem?_eraseIdx_ge s.position tid (j - 1) hj3, hj4]
  · intro tid2 h2
    unfold remove
    rw [List.getElem?_eq_none h2]

/-- Witness for C5: the out-of-range clause at a concrete column and
tid, obtained from the theorem at tid 0 of a two-row column. -/
theorem remove_spec_witness :
    remove (insert (insert (emptyCol Int) 7).1 5).1 2
      = Except.error CErr.outOfRange := by
  have h := remove_spec (insert (insert (emptyCol Int) 7).1 5).1 0
    (Inv_insert (Inv_insert (Inv_emptyCol Int) 7) 5) (by decide)
  exact h.2 2 (by decide)

/-- C6: the typed insert always returns `true`; it bumps the count of
the value (creating the entry with count 1 when absent), appends the
handle so the new row is readable at the prior size, leaves every
other dictionary entry unchanged, and k successive inserts grow the
size by exactly k. -/
theorem insert_spec (s : DictionaryCompressedColumn T) (v : T)
    (hs : Dict.Sorted s.values) (hz : NoZero s.values) :
    (insert s v).2 = true ∧
    size (insert s v).1 = size s + 1 ∧
    get (insert s v).1 (size s) = Except.ok v ∧
    Dict.find? (insert s v).1.values v = some (countOf s v + 1) ∧
    (∀ q, q ≠ v → Dict.find? (insert s v).1.values q = Dict.find? s.values q) ∧
    ∀ vs, (insertMany s vs).2 = true ∧
      size (insertMany s vs).1 = size s + vs.length := by
  obtain ⟨hs2, hz2, hself, hne⟩ := bumpValue_spec s.values v hs hz
  refine ⟨rfl, size_insert s v, ?_, hself, hne, ?_⟩
  · show get ⟨bumpValue s.values v, s.position ++ [v]⟩ (size s) = Except.ok v
    simp [get, size]
  · intro vs
    exact ⟨(insertMany_spec s vs).2, (insertMany_spec s vs).1⟩

/-- Witness for C6: the freshly inserted row of a concrete column is
readable at the prior size. -/
theorem insert_spec_witness :
    get (insert (insert (emptyCol Int) 7).1 5).1
      (size (insert (emptyCol Int) 7).1) = Except.ok 5 := by
  have h := insert_spec (insert (emptyCol Int) 7).1 5 (by decide) (by decide)
  exact h.2.2.1

/-- C7: the opaque-value insert fails exactly on an empty holder or a
runtime-type mismatch, leaving the column unchanged; on a matching
holder it unwraps the value, behaves like the typed insert, and
returns success. -/
theorem insertAny_spec (c : Ty) (s : DictionaryCompressedColumn c.denote) :
    insertAny c s AnyValue.empty = (s, false) ∧
    (∀ (ty : Ty) (v : ty.denote), ty ≠ c →
      insertAny c s (AnyValue.val ty v) = (s, false)) ∧
    ∀ v : c.denote, insertAny c s (AnyValue.val c v) = insert s v ∧
      (insertAny c s (AnyValue.val c v)).2 = true := by
  refine ⟨rfl, ?_, ?_⟩
  · intro ty v h
    exact insertAny_mismatch c s v h
  · intro v
    refine ⟨insertAny_match c s v, ?_⟩
    rw [insertAny_match c s v]
    rfl

/-- Witness for C7: a float-typed holder is rejected by an int column,
and an int-typed holder delegates to the typed insert. -/
theorem insertAny_spec_witness :
    insertAny Ty.tyInt (emptyCol Int) (AnyValue.val Ty.tyFloat ())
      = (emptyCol Int, false) ∧
    insertAny Ty.tyInt (emptyCol Int) (AnyValue.val Ty.tyInt 5)
      = insert (emptyCol Int) 5 := by
  have h := insertAny_spec Ty.tyInt (emptyCol Int)
  exact ⟨h.2.1 Ty.tyFloat () (by decide), (h.2.2 5).1⟩

/-- C8: update on an empty holder or a holder of mismatching runtime
type returns failure and leaves the column exactly as it was, for
every state and tid: both type checks run before any state is
touched. -/
theorem update_reject_spec (c : Ty) (s : DictionaryCompressedColumn c.denote)
    (tid : TID) :
    update c s tid AnyValue.empty = Except.ok (s, false) ∧
    ∀ (ty : Ty) (v : ty.denote), ty ≠ c →
      update c s tid (AnyValue.val ty v) = Except.ok (s, false) := by
  refine ⟨rfl, ?_⟩
  intro ty v h
  simp [update, h]

/-- Witness for C8: a float-typed holder on an int column, matching
the spec scenario. -/
theorem update_reject_witness :
    update Ty.tyInt (insert (emptyCol Int) 7).1 0 (AnyValue.val Ty.tyFloat ())
      = Except.ok ((insert (emptyCol Int) 7).1, false) := by
  have h := update_reject_spec Ty.tyInt (insert (emptyCol Int) 7).1 0
  exact h.2 Ty.tyFloat () (by decide)

/-- C9, counterexample: the claim states out-of-range failures are
surfaced as a boolean status and that no exception escapes.  In the
code, get, remove, and well-typed update reach `_position.at(tid)`,
whose `std::out_of_range` throw propagates to the caller (modelled as
`Except.error`); the result is not the ok-false status the claim
requires. -/
theorem oob_status_counterexample :
    get (emptyCol Int) 0 = Except.error CErr.outOfRange ∧
    remove (emptyCol Int) 0 = Except.error CErr.outOfRange ∧
    update Ty.tyInt (emptyCol Int) 0 (AnyValue.val Ty.tyInt 5)
      = Except.error CErr.outOfRange ∧
    remove (emptyCol Int) 0 ≠ Except.ok (emptyCol Int, false) := by
  refine ⟨by decide, by decide, by decide, by decide⟩

/-- C9, amended: for every tid outside [0, N), get and remove, and
update with a well-typed value, fail by letting the out-of-range
exception from the position bounds check propagate to the caller;
only the type-check failures of the opaque boundary are returned as a
boolean. -/
theorem oob_exception_spec (c : Ty) (s : DictionaryCompressedColumn c.denote)
    (tid : TID) (h : size s ≤ tid) :
    get s tid = Except.error CErr.outOfRange ∧
    remove s tid = Except.error CErr.outOfRange ∧
    ∀ v : c.denote,
      update c s tid (AnyValue.val c v) = Except.error CErr.outOfRange := by
  have hnone : s.position[tid]? = none := List.getElem?_eq_none h
  refine ⟨?_, ?_, ?_⟩
  · unfold get
    rw [hnone]
  · unfold remove
    rw [hnone]
  · intro v
    simp only [update, dif_pos]
    rw [hnone]

/-- Witness for C9 (amended) on an empty int column at tid 3. -/
theorem oob_exception_witness :
    update Ty.tyInt (emptyCol Int) 3 (AnyValue.val Ty.tyInt 5)
      = Except.error CErr.outOfRange := by
  have h := oob_exception_spec Ty.tyInt (emptyCol Int) 3 (by decide)
  exact h.2.2 5

/-- C10: load on a column that is not empty does not clear it: the
rows read from the position file are appended after the existing rows
(so the size grows by the number of ordinals and every pre-existing
row reads back unchanged), and a value already present in the
dictionary keeps its pre-existing count, the count read from the file
being discarded by `emplace`. -/
theorem load_nonempty_appends (s : DictionaryCompressedColumn T) (f : Files T)
    (hs : Dict.Sorted s.values) (s2 : DictionaryCompressedColumn T)
    (hld : load s f = some s2) :
    size s2 = size s + f.positionFile.length ∧
    (∀ j, j < size s → get s2 j = get s j) ∧
    ∀ v c, Dict.find? s.values v = some c → Dict.find? s2.values v = some c := by
  unfold load at hld
  split at hld
  next => exact Option.noConfusion hld
  next ps heq =>
    obtain rfl := Option.some_inj.1 hld
    refine ⟨?_, ?_, ?_⟩
    · have hlen : ps.length = f.positionFile.length :=
        readPositions_length _ _ _ heq
      simp [size, hlen]
    · intro j hj
      unfold get
      rw [List.getElem?_append_left hj]
    · intro v c hv
      exact find?_foldl_emplace f.valuesFile s.values hs v c hv

/-- Witness for C10: loading a file that claims count 5 for the value
7 into a column already holding 7 with count 1 keeps count 1. -/
theorem load_nonempty_witness :
    Dict.find?
      ((⟨[(7, 1)], [7, 7]⟩ : DictionaryCompressedColumn Int)).values 7
      = some 1 := by
  have h := load_nonempty_appends
    (⟨[(7, 1)], [7]⟩ : DictionaryCompressedColumn Int)
    ⟨[(5, 7)], [0]⟩ (by decide) ⟨[(7, 1)], [7, 7]⟩ (by decide)
  exact h.2.2 7 1 (by decide)

end DictionaryCompressedColumn

namespace HeapModel

/-- C2: the claim states that copy yields an independent column whose
position handles refer to its own dictionary.  The code violates it:
the compiler-generated copy constructor clones the map nodes but
copies the position vector verbatim, so every handle of the copy
still points at the SOURCE map nodes.  Concretely, for a column
holding the value 7 twice: after the copy, each position slot of the
copy lies outside its own dictionary; updating row 0 of the COPY
decrements the node the source cites (its count drops to 1 although
the source cites it twice); a subsequent remove of row 0 on the
SOURCE then evicts that node while the source still cites it, and the
following get dereferences a destroyed node — whereas the identical
source operations without the copy-side update leave get returning 7. -/
theorem copy_shares_source_nodes :
    HeapModel.insert (HeapModel.insert (⟨[]⟩ : HeapState Int) ⟨[], []⟩ 7).1
        (HeapModel.insert (⟨[]⟩ : HeapState Int) ⟨[], []⟩ 7).2.1 7
      = (⟨[some (7, 2)]⟩, ⟨[0], [0, 0]⟩, true) ∧
    HeapModel.copy (⟨[some (7, 2)]⟩ : HeapState Int) ⟨[0], [0, 0]⟩
      = (⟨[some (7, 2), some (7, 2)]⟩, ⟨[1], [0, 0]⟩) ∧
    (∀ i ∈ (HeapModel.copy (⟨[some (7, 2)]⟩ : HeapState Int)
        ⟨[0], [0, 0]⟩).2.position,
      i ∉ (HeapModel.copy (⟨[some (7, 2)]⟩ : HeapState Int)
        ⟨[0], [0, 0]⟩).2.valueIds) ∧
    HeapModel.update (⟨[some (7, 2), some (7, 2)]⟩ : HeapState Int)
        ⟨[1], [0, 0]⟩ 0 8
      = Except.ok (⟨[some (7, 1), some (7, 2), some (8, 2)]⟩,
          ⟨[1, 2], [2, 0, 2]⟩, true) ∧
    nodeAt (⟨[some (7, 1), some (7, 2), some (8, 2)]⟩ : HeapState Int) 0
      = some (7, 1) ∧
    HeapModel.remove (⟨[some (7, 1), some (7, 2), some (8, 2)]⟩ : HeapState Int)
        ⟨[0], [0, 0]⟩ 0
      = Except.ok (⟨[none, some (7, 2), some (8, 2)]⟩, ⟨[], [0]⟩, true) ∧
    HeapModel.get (⟨[none, some (7, 2), some (8, 2)]⟩ : HeapState Int)
        ⟨[], [0]⟩ 0 = Except.error HErr.dangling ∧
    HeapModel.remove (⟨[some (7, 2), some (7, 2)]⟩ : HeapState Int)
        ⟨[0], [0, 0]⟩ 0
      = Except.ok (⟨[some (7, 1), some (7, 2)]⟩, ⟨[0], [0]⟩, true) ∧
    HeapModel.get (⟨[some (7, 1), some (7, 2)]⟩ : HeapState Int)
        ⟨[0], [0]⟩ 0 = Except.ok 7 := by
  refine ⟨by decide, by decide, by decide, by decide, by decide,
    by decide, by decide, by decide, by decide⟩

end HeapModel

end CoGaDB
